import Mathlib

/-!
Verification of the `cryp` envelope codec and its file/directory realization.

The Go sources (`enc.go`, the decrypt file, and the directory walkers) are
shallowly embedded below.  Byte strings are `List Nat` (each entry a byte
value `< 256` where that matters).  External library primitives that the
repository merely calls (AES block encryption, gzip, HMAC-SHA-256, SHA-512,
scrypt, and the tar container) are modelled as fields of a `Prims` record;
the repository's own logic (CFB chaining, hex encoding and decoding,
envelope framing, MAC checking, file and walk orchestration) is embedded
concretely, mirroring the source statement by statement.
-/

namespace Cryp

abbrev Bytes := List Nat

/-! ### Hex encoding (Go `encoding/hex`) -/

/-- Lowercase hex digit for a nibble, as `encoding/hex` emits. -/
def hexDigitChar (n : Nat) : Char :=
  Char.ofNat (if n < 10 then 48 + n else 87 + n)

def hexEncodeList : Bytes → List Char
  | [] => []
  | b :: rest => hexDigitChar (b / 16) :: hexDigitChar (b % 16) :: hexEncodeList rest

/-- `hex.EncodeToString`: two lowercase hex characters per byte. -/
def hexEncode (bs : Bytes) : String := ⟨hexEncodeList bs⟩

/-- `encoding/hex` digit decoding: accepts `0-9`, `a-f`, `A-F`. -/
def decodeHexChar (c : Char) : Option Nat :=
  if 48 ≤ c.toNat ∧ c.toNat ≤ 57 then some (c.toNat - 48)
  else if 97 ≤ c.toNat ∧ c.toNat ≤ 102 then some (c.toNat - 87)
  else if 65 ≤ c.toNat ∧ c.toNat ≤ 70 then some (c.toNat - 55)
  else none

def hexDecodeList : List Char → Option Bytes
  | [] => some []
  | [_] => none
  | c1 :: c2 :: rest =>
    match decodeHexChar c1, decodeHexChar c2, hexDecodeList rest with
    | some h, some l, some tail => some ((16 * h + l) :: tail)
    | _, _, _ => none

/-- `hex.DecodeString`: fails on odd length or any non-hex character. -/
def hexDecode (s : String) : Option Bytes := hexDecodeList s.data

/-- The `^[a-f0-9]{64}$` regular expression from the decrypt source. -/
def isLowerHexChar (c : Char) : Bool :=
  (48 ≤ c.toNat && c.toNat ≤ 57) || (97 ≤ c.toNat && c.toNat ≤ 102)

def isHex64 (s : String) : Bool :=
  s.length = 64 && s.data.all isLowerHexChar

/-! ### CFB mode (Go `crypto/cipher`, segment size = AES block size 16)

`E` is the block-encryption function of the underlying cipher keyed with the
derived key.  The keystream starts as `E iv` and is refreshed by encrypting
the previous ciphertext block, on both the encrypting and decrypting side.
A fuel argument (at least the buffer length) makes the recursion structural. -/

def xorBytes (a b : Bytes) : Bytes := List.zipWith (fun x y => x ^^^ y) a b

def cfbEncLoop (E : Bytes → Bytes) : Nat → Bytes → Bytes → Bytes
  | 0, _, _ => []
  | fuel + 1, ks, p =>
    match p with
    | [] => []
    | _ :: _ =>
      let c := xorBytes (List.take 16 p) ks
      c ++ cfbEncLoop E fuel (E c) (List.drop 16 p)

/-- `cipher.NewCFBEncrypter(block, iv).XORKeyStream(dst, src)` with initial
keystream `ks = E iv`. -/
def cfbEncrypt (E : Bytes → Bytes) (ks p : Bytes) : Bytes :=
  cfbEncLoop E p.length ks p

def cfbDecLoop (E : Bytes → Bytes) : Nat → Bytes → Bytes → Bytes
  | 0, _, _ => []
  | fuel + 1, ks, c =>
    match c with
    | [] => []
    | _ :: _ =>
      let pblk := xorBytes (List.take 16 c) ks
      pblk ++ cfbDecLoop E fuel (E (List.take 16 c)) (List.drop 16 c)

/-- `cipher.NewCFBDecrypter(block, iv).XORKeyStream(dst, src)` with initial
keystream `ks = E iv`; the keystream refresh uses the ciphertext block. -/
def cfbDecrypt (E : Bytes → Bytes) (ks c : Bytes) : Bytes :=
  cfbDecLoop E c.length ks c

/-! ### External primitives

The repository calls these through the Go standard library and
`golang.org/x/crypto/scrypt`; they are parameters of the embedding. -/

/-- `tar.Header` fields the source reads and writes: name (base file name),
permission+mode bits (`int64(info.Mode())`), byte size, modification time. -/
structure TarHeader where
  name : String
  mode : Nat
  size : Nat
  modTime : Int
  deriving DecidableEq

/-- The external primitives: AES block encryption (keyed), gzip compression
at `BestCompression` and decompression, HMAC-SHA-256, SHA-512, scrypt, and
the tar writer/reader.  `gunzip` returns `none` on a corrupt stream.
`tarNext` returns `.error ()` on a malformed archive, `.ok none` when the
stream ends with no entry (`tar.Reader.Next` returning `io.EOF` and a nil
header), and `.ok (some (hdr, content))` for the single entry. -/
structure Prims where
  blockEncrypt : Bytes → Bytes → Bytes
  gzipC : Bytes → Bytes
  gunzip : Bytes → Option Bytes
  hmacSHA256 : Bytes → Bytes → Bytes
  sha512 : Bytes → Bytes
  scryptKey : Bytes → Bytes → Nat → Nat → Nat → Nat → Bytes
  tarSer : TarHeader → Bytes → Bytes
  tarNext : Bytes → Except Unit (Option (TarHeader × Bytes))

/-! ### Envelope codec (`Encrypt` in enc.go, `Decrypt` in the decrypt file) -/

/-- `generate32ByteKey`: scrypt with `N = 16 << 10`, `r = 8`, `p = 1`,
32-byte output, salted with `sha512.Sum512(input)`.  The Go code discards
the (impossible for these fixed parameters) scrypt error. -/
def generate32ByteKey (pr : Prims) (input : Bytes) : Bytes :=
  pr.scryptKey input (pr.sha512 input) (16 <<< 10) 8 1 32

/-- `Encrypt(data, key)`: gzip the data, prepend a 16-byte IV to the CFB
transform of the compressed bytes, and sign the whole envelope with
HMAC-SHA-256 keyed by the raw `key`.  The random IV draw is modelled as the
explicit `iv` argument. -/
def Encrypt (pr : Prims) (data key iv : Bytes) : Bytes × String :=
  let aes256Key := generate32ByteKey pr key
  let compressed := pr.gzipC data
  let E := pr.blockEncrypt aes256Key
  let ciphertext := iv ++ cfbEncrypt E (E iv) compressed
  let sig := hexEncode (pr.hmacSHA256 key ciphertext)
  (ciphertext, sig)

/-- Error taxonomy of the library (one constructor per distinct Go error). -/
inductive CrypErr where
  | insufficientData   -- "insufficient data to decrypt"
  | invalidHex         -- hex.DecodeString failure
  | sigMismatch        -- "signature does not match data"
  | corruptPayload     -- gzip reader failure
  | invalidFileName    -- "invalid file name, expected SHA-256 hash"
  | statError          -- os.Stat failure: path does not exist
  | invalidFileType    -- "invalid file type"
  | fileExists         -- os.OpenFile with O_EXCL on an existing path
  | shortWrite         -- io.ErrShortWrite
  | tarError           -- tar.Reader failure other than io.EOF
  deriving DecidableEq

/-- `hmac.Equal`: constant-time comparison, equality of byte strings. -/
def hmacEqual (a b : Bytes) : Bool := a == b

/-- `Decrypt(data, sig, key)`.  The Go function decrypts the ciphertext
*in place* inside the caller's buffer; the second component of the result
is the buffer as the caller sees it after the call.  Order of checks is the
source's: length, hex decoding, MAC comparison, then key derivation, CFB,
and gunzip. -/
def Decrypt (pr : Prims) (data : Bytes) (sig : String) (key : Bytes) :
    Except CrypErr Bytes × Bytes :=
  if data.length < 16 then (.error .insufficientData, data)
  else
    match hexDecode sig with
    | none => (.error .invalidHex, data)
    | some sig_mac =>
      let data_mac := pr.hmacSHA256 key data
      if ¬ hmacEqual sig_mac data_mac then (.error .sigMismatch, data)
      else
        let aes256Key := generate32ByteKey pr key
        let E := pr.blockEncrypt aes256Key
        let iv := List.take 16 data
        let dectext := cfbDecrypt E (E iv) (List.drop 16 data)
        let buf := iv ++ dectext
        match pr.gunzip dectext with
        | none => (.error .corruptPayload, buf)
        | some out => (.ok out, buf)

/-! ### Filesystem model

Paths are component lists; `filepath.Base` is the last component,
`filepath.Dir` drops it, and `filepath.Join(dir, name)` appends.  A
filesystem is a partial map from paths to files.  `File.mode` carries the
full Go `os.FileMode` bits (type bits or-ed with the permission bits). -/

abbrev Path := List String

/-- `filepath.Base`: the last path component. -/
def pathBase (p : Path) : String := (p.getLast?).getD ""

structure File where
  mode : Nat
  content : Bytes
  modTime : Int
  deriving DecidableEq

/-- A filesystem entry: a concrete inode (regular file, directory, pipe,
socket or device, distinguished by the type bits in `File.mode`) or a
symbolic link to another path.  Symlinks are separate because `os.Stat`
and `ioutil.ReadFile` follow them while `filepath.Walk` hands the callback
`os.Lstat` information and `os.Remove` removes the link itself. -/
inductive Entry where
  | file (f : File)
  | symlink (target : Path)
  deriving DecidableEq

abbrev FS := Path → Option Entry

def fsSet (fs : FS) (p : Path) (e : Entry) : FS :=
  fun q => if q = p then some e else fs q

def fsDel (fs : FS) (p : Path) : FS :=
  fun q => if q = p then none else fs q

/-- Go `os.ModeDir`. -/
def modeDir : Nat := 2 ^ 31

/-- Go `os.ModeSymlink`. -/
def modeSymlink : Nat := 2 ^ 27

/-- `os.ModeType = ModeDir | ModeSymlink | ModeNamedPipe | ModeSocket | ModeDevice`. -/
def modeType : Nat := 2 ^ 31 ||| 2 ^ 27 ||| 2 ^ 26 ||| 2 ^ 25 ||| 2 ^ 24

/-- The mode `os.Lstat` reports for an entry (what `filepath.Walk` hands
its callback): a concrete inode's own mode; for a symlink, the
`ModeSymlink` bit (the permission bits of a link are irrelevant to every
check the source makes). -/
def lstatMode : Entry → Nat
  | .file f => f.mode
  | .symlink _ => modeSymlink ||| 0o777

/-- The kernel's bound on symlink traversals during path resolution. -/
def maxSymlinkHops : Nat := 40

def statResolve (fs : FS) : Nat → Path → Option File
  | 0, _ => none
  | fuel + 1, p =>
    match fs p with
    | none => none
    | some (.file f) => some f
    | some (.symlink t) => statResolve fs fuel t

/-- Go `os.Stat` (and the subsequent `ioutil.ReadFile`): follows symbolic
links to the underlying inode, failing on a dangling link or a loop. -/
def osStat (fs : FS) (p : Path) : Option File :=
  statResolve fs maxSymlinkHops p

/-- The tar bytes `EncryptFile` builds for the file at `path`: a
single-entry archive holding base name, mode, size, modification time, and
contents (`tar.Header` filled from `os.Stat`, then the data). -/
def fileTarBytes (pr : Prims) (path : Path) (info : File) : Bytes :=
  pr.tarSer ⟨pathBase path, info.mode, info.content.length, info.modTime⟩ info.content

/-- The artifact path `EncryptFile` derives: the hex signature of the
envelope, joined to the source file's parent directory. -/
def artifactPath (pr : Prims) (path : Path) (info : File) (key iv : Bytes) : Path :=
  path.dropLast ++ [(Encrypt pr (fileTarBytes pr path info) key iv).2]

/-- The artifact file `EncryptFile` creates: permission 0400, containing
the full envelope bytes. -/
def artifactFile (pr : Prims) (path : Path) (info : File) (key iv : Bytes)
    (now : Int) : File :=
  ⟨0o400, (Encrypt pr (fileTarBytes pr path info) key iv).1, now⟩

/-- `EncryptFile(path, key)`: stat, reject non-regular files, read the
contents, build a single-entry tar archive of name/mode/size/modtime plus
data, encrypt it, and create the artifact exclusively (`O_EXCL`, mode 0400)
named by the hex signature in the same directory.  The in-memory write is
always complete, so the `n != len` short-write branch cannot fire and is
not represented.  The returned filesystem is the state after the call. -/
def EncryptFile (pr : Prims) (fs : FS) (path : Path) (key iv : Bytes) (now : Int) :
    Except CrypErr Path × FS :=
  match osStat fs path with
  | none => (.error .statError, fs)
  | some info =>
    if info.mode &&& modeType ≠ 0 then (.error .invalidFileType, fs)
    else
      match fs (artifactPath pr path info key iv) with
      | some _ => (.error .fileExists, fs)
      | none =>
        (.ok (artifactPath pr path info key iv),
         fsSet fs (artifactPath pr path info key iv)
           (.file (artifactFile pr path info key iv now)))

/-- Result of `DecryptFile`: success with the restored path, a returned
error, or the nil-pointer dereference the code hits when `tar.Reader.Next`
returns `io.EOF` with a nil header and the code reads `hdr.Name`. -/
inductive DFRes where
  | ok (restored : Path)
  | err (e : CrypErr)
  | nilPanic
  deriving DecidableEq

/-- `DecryptFile(path, key)`: check the 64-hex name, stat, reject
non-regular files, read, `Decrypt` with the base name as signature, parse
the tar payload, and restore the entry exclusively with the archived mode,
copying the content and then setting the archived modification time.
On the short-copy error the created file remains with the copied bytes and
creation-time modtime, as after Go's early return.  The second component
is the filesystem after the call. -/
def DecryptFile (pr : Prims) (fs : FS) (path : Path) (key : Bytes) (now : Int) :
    DFRes × FS :=
  if ¬ isHex64 (pathBase path) then (.err .invalidFileName, fs)
  else
    match osStat fs path with
    | none => (.err .statError, fs)
    | some info =>
      if info.mode &&& modeType ≠ 0 then (.err .invalidFileType, fs)
      else
        match (Decrypt pr info.content (pathBase path) key).1 with
        | .error e => (.err e, fs)
        | .ok dec_data =>
          match pr.tarNext dec_data with
          | .error _ => (.err .tarError, fs)
          | .ok none => (.nilPanic, fs)
          | .ok (some (hdr, content)) =>
            match fs (path.dropLast ++ [hdr.name]) with
            | some _ => (.err .fileExists, fs)
            | none =>
              if content.length ≠ hdr.size then
                (.err .shortWrite,
                 fsSet fs (path.dropLast ++ [hdr.name])
                   (.file ⟨hdr.mode, content, now⟩))
              else
                (.ok (path.dropLast ++ [hdr.name]),
                 fsSet (fsSet fs (path.dropLast ++ [hdr.name])
                     (.file ⟨hdr.mode, content, now⟩))
                   (path.dropLast ++ [hdr.name]) (.file ⟨hdr.mode, content, hdr.modTime⟩))

/-- Result of a directory walk: completion, abort on the first error, or a
panic propagating out of `DecryptFile`. -/
inductive WalkRes where
  | done
  | failed (e : CrypErr)
  | panicked
  deriving DecidableEq

/-- `EncryptDirFiles`: visit each enumerated entry; skip entries whose mode
has any `ModeType` bit; otherwise `EncryptFile` then `os.Remove` the
original; abort the walk on the first error.  `entries` is the traversal
order produced by `filepath.Walk`; `ivf` supplies the random IV drawn for
each file. -/
def encryptWalk (pr : Prims) (key : Bytes) (ivf : Path → Bytes) (now : Int) :
    List Path → FS → FS × WalkRes
  | [], fs => (fs, .done)
  | p :: rest, fs =>
    match fs p with
    | none => encryptWalk pr key ivf now rest fs
    | some ent =>
      if lstatMode ent &&& modeType ≠ 0 then encryptWalk pr key ivf now rest fs
      else
        match EncryptFile pr fs p key (ivf p) now with
        | (.error e, fs') => (fs', .failed e)
        | (.ok _, fs') => encryptWalk pr key ivf now rest (fsDel fs' p)

/-- `DecryptDirFiles`: visit each enumerated entry; continue into
directories; skip files whose base name is not 64 lowercase hex characters;
otherwise `DecryptFile` then `os.Remove` the artifact; abort on the first
error (and a panic aborts everything). -/
def decryptWalk (pr : Prims) (key : Bytes) (now : Int) :
    List Path → FS → FS × WalkRes
  | [], fs => (fs, .done)
  | p :: rest, fs =>
    match fs p with
    | none => decryptWalk pr key now rest fs
    | some ent =>
      if lstatMode ent &&& modeDir ≠ 0 then decryptWalk pr key now rest fs
      else if ¬ isHex64 (pathBase p) then decryptWalk pr key now rest fs
      else
        match DecryptFile pr fs p key now with
        | (.err e, fs') => (fs', .failed e)
        | (.nilPanic, fs') => (fs', .panicked)
        | (.ok _, fs') => decryptWalk pr key now rest (fsDel fs' p)

/-! ### Concrete witness data

A small instantiation of the abstract primitives and a few concrete
filesystem states, used by the closed witness and counterexample theorems. -/

/-- Witness primitives: a constant block cipher of the right width, the
identity gzip pair, a constant 32-byte MAC, and a tar codec that yields no
entry on an empty stream (as `tar.Reader.Next` does) and one entry holding
the whole stream otherwise. -/
def wPrims : Prims where
  blockEncrypt := fun _ _ => List.replicate 16 7
  gzipC := fun p => p
  gunzip := fun b => some b
  hmacSHA256 := fun _ _ => List.replicate 32 0
  sha512 := fun _ => List.replicate 64 0
  scryptKey := fun _ _ _ _ _ kl => List.replicate kl 0
  tarSer := fun _ d => d
  tarNext := fun b =>
    match b with
    | [] => .ok none
    | _ => .ok (some (⟨"f", 0o644, b.length, 0⟩, b))

def wKey : Bytes := [107, 101, 121]

def wIv : Bytes := List.replicate 16 0

def wIvf : Path → Bytes := fun _ => List.replicate 16 0

/-- The 64-zero signature: `hexEncode (List.replicate 32 0)`. -/
def sig0 : String :=
  "0000000000000000000000000000000000000000000000000000000000000000"

/-- `sig0` with one bit of the first character flipped: `'0'` (0x30)
becomes `'p'` (0x70), which is not a hex digit. -/
def sig0flip : String :=
  "p000000000000000000000000000000000000000000000000000000000000000"

/-- An artifact whose decrypted payload is empty: content is a bare
16-byte IV, so the ciphertext is empty and gunzip yields no bytes. -/
def c5Fs : FS :=
  fun q =>
    if q = ["d", sig0] then some (.file ⟨0o400, List.replicate 16 0, 0⟩) else none

def c5Path : Path := ["d", sig0]

/-- An artifact with one ciphertext byte, which decrypts (under `wPrims`)
to a one-byte tar payload carrying entry `"f"`. -/
def c9Fs : FS :=
  fun q =>
    if q = ["d", sig0] then some (.file ⟨0o400, List.replicate 17 0, 0⟩) else none

def c9Path : Path := ["d", sig0]

def c9Art : File := ⟨0o400, List.replicate 17 0, 0⟩

/-- A one-file filesystem for the `EncryptFile` witness. -/
def c7Fs : FS :=
  fun q => if q = ["d", "a.txt"] then some (.file ⟨0o644, [104, 105], 5⟩) else none

def c7Path : Path := ["d", "a.txt"]

/-- A directory entry for the walk witness. -/
def c8Dir : File := ⟨modeDir ||| 0o755, [], 0⟩

def c8Fs : FS :=
  fun q => if q = ["d", "sub"] then some (.file c8Dir) else none

/-- Symlink scenario: a regular file `["d", "t"]` (plain, non-hex name)
holding valid artifact bytes, and a symlink named the artifact's
signature pointing at it. -/
def c8sTarget : File := ⟨0o644, List.replicate 17 0, 0⟩

def c8sFs : FS :=
  fun q =>
    if q = ["d", sig0] then some (.symlink ["d", "t"])
    else if q = ["d", "t"] then some (.file c8sTarget)
    else none

/-- The bytes `Decrypt` writes over the ciphertext portion of the caller's
buffer when authentication succeeds: the CFB decryption, under the derived
key, of everything after the 16-byte IV. -/
def decryptedTail (pr : Prims) (data key : Bytes) : Bytes :=
  cfbDecrypt (pr.blockEncrypt (generate32ByteKey pr key))
    (pr.blockEncrypt (generate32ByteKey pr key) (List.take 16 data))
    (List.drop 16 data)

/-- A hex-decodable 64-character signature that differs from the constant
MAC of `wPrims`. -/
def w2Sig : String :=
  "1111111111111111111111111111111111111111111111111111111111111111"

/-- The file `DecryptFile` restores in the `c9Fs` and `c8sFs` scenarios. -/
def c9Restored : File := ⟨0o644, [7], 0⟩

/-- The filesystem after the successful `DecryptFile` call of the `c9Fs`
scenario: the artifact is still present, the restored file was written
twice (content, then archived modification time). -/
def c9FsAfter : FS :=
  fsSet (fsSet c9Fs ["d", "f"] (.file c9Restored)) ["d", "f"] (.file c9Restored)

/-- The filesystem after the successful `DecryptFile` call of the symlink
scenario: link and target untouched, the target's payload restored. -/
def c8sFsAfter : FS :=
  fsSet (fsSet c8sFs ["d", "f"] (.file c9Restored)) ["d", "f"] (.file c9Restored)

/-! ### Theorems -/

theorem decodeHexChar_hexDigitChar (d : Nat) (hd : d < 16) :
    decodeHexChar (hexDigitChar d) = some d := by
  interval_cases d <;> rfl

theorem hexDecodeList_hexEncodeList (bs : Bytes) (h : ∀ b ∈ bs, b < 256) :
    hexDecodeList (hexEncodeList bs) = some bs := by
  induction bs with
  | nil => rfl
  | cons b rest ih =>
    have hb : b < 256 := h b (List.mem_cons_self _ _)
    have hhi : b / 16 < 16 := Nat.div_lt_of_lt_mul (by omega)
    have hlo : b % 16 < 16 := Nat.mod_lt _ (by omega)
    have hrest := ih (fun x hx => h x (List.mem_cons_of_mem _ hx))
    simp only [hexEncodeList, hexDecodeList,
      decodeHexChar_hexDigitChar _ hhi, decodeHexChar_hexDigitChar _ hlo, hrest]
    have : 16 * (b / 16) + b % 16 = b := by
      have := Nat.div_add_mod b 16
      omega
    simp [this]

theorem hexDecode_hexEncode (bs : Bytes) (h : ∀ b ∈ bs, b < 256) :
    hexDecode (hexEncode bs) = some bs :=
  hexDecodeList_hexEncodeList bs h

theorem isLowerHexChar_hexDigitChar (d : Nat) (hd : d < 16) :
    isLowerHexChar (hexDigitChar d) = true := by
  interval_cases d <;> rfl

theorem length_hexEncodeList (bs : Bytes) :
    (hexEncodeList bs).length = 2 * bs.length := by
  induction bs with
  | nil => rfl
  | cons b rest ih => simp [hexEncodeList, ih]; omega

theorem all_isLowerHexChar_hexEncodeList (bs : Bytes) (h : ∀ b ∈ bs, b < 256) :
    (hexEncodeList bs).all isLowerHexChar = true := by
  induction bs with
  | nil => rfl
  | cons b rest ih =>
    have hb : b < 256 := h b (List.mem_cons_self _ _)
    have hhi : b / 16 < 16 := Nat.div_lt_of_lt_mul (by omega)
    have hlo : b % 16 < 16 := Nat.mod_lt _ (by omega)
    simp [hexEncodeList, isLowerHexChar_hexDigitChar _ hhi,
      isLowerHexChar_hexDigitChar _ hlo, ih (fun x hx => h x (List.mem_cons_of_mem _ hx))]

theorem cfbEncLoop_nil (E : Bytes → Bytes) (fuel : Nat) (ks : Bytes) :
    cfbEncLoop E fuel ks [] = [] := by
  cases fuel <;> rfl

theorem cfbDecLoop_nil (E : Bytes → Bytes) (fuel : Nat) (ks : Bytes) :
    cfbDecLoop E fuel ks [] = [] := by
  cases fuel <;> rfl

theorem length_xorBytes (a b : Bytes) :
    (xorBytes a b).length = min a.length b.length := by
  simp [xorBytes]

theorem xorBytes_xorBytes_cancel (a : Bytes) :
    ∀ b : Bytes, a.length ≤ b.length → xorBytes (xorBytes a b) b = a := by
  induction a with
  | nil => intro b _; rfl
  | cons x xs ih =>
    intro b hb
    cases b with
    | nil => simp at hb
    | cons y ys =>
      simp only [xorBytes, List.zipWith_cons_cons]
      have : x ^^^ y ^^^ y = x := Nat.xor_cancel_right y x
      simp only [this, List.cons.injEq, true_and]
      exact ih ys (by simpa using hb)

theorem cfbEncLoop_cons (E : Bytes → Bytes) (fuel : Nat) (ks p : Bytes) (hp : p ≠ []) :
    cfbEncLoop E (fuel + 1) ks p
      = xorBytes (List.take 16 p) ks
          ++ cfbEncLoop E fuel (E (xorBytes (List.take 16 p) ks)) (List.drop 16 p) := by
  cases p with
  | nil => cases hp rfl
  | cons x xs => rfl

theorem cfbDecLoop_cons (E : Bytes → Bytes) (fuel : Nat) (ks c : Bytes) (hc : c ≠ []) :
    cfbDecLoop E (fuel + 1) ks c
      = xorBytes (List.take 16 c) ks
          ++ cfbDecLoop E fuel (E (List.take 16 c)) (List.drop 16 c) := by
  cases c with
  | nil => cases hc rfl
  | cons x xs => rfl

theorem length_cfbEncLoop (E : Bytes → Bytes) (hE : ∀ b, (E b).length = 16) :
    ∀ (fuel : Nat) (ks p : Bytes), p.length ≤ fuel → ks.length = 16 →
      (cfbEncLoop E fuel ks p).length = p.length := by
  intro fuel
  induction fuel with
  | zero =>
    intro ks p hp _
    have : p = [] := List.eq_nil_of_length_eq_zero (Nat.le_zero.mp hp)
    simp [this, cfbEncLoop]
  | succ fuel ih =>
    intro ks p hp hks
    by_cases hnil : p = []
    · simp [hnil, cfbEncLoop_nil]
    have hplen : 1 ≤ p.length := List.length_pos.mpr hnil
    rw [cfbEncLoop_cons E fuel ks p hnil, List.length_append]
    rw [ih (E (xorBytes (List.take 16 p) ks)) (List.drop 16 p)
      (by rw [List.length_drop]; omega) (hE _)]
    rw [length_xorBytes, List.length_take, hks, List.length_drop]
    omega

theorem cfb_inverse (E : Bytes → Bytes) (hE : ∀ b, (E b).length = 16) :
    ∀ (fuel : Nat) (ks p : Bytes), p.length ≤ fuel → ks.length = 16 →
      cfbDecLoop E fuel ks (cfbEncLoop E fuel ks p) = p := by
  intro fuel
  induction fuel with
  | zero =>
    intro ks p hp _
    have : p = [] := List.eq_nil_of_length_eq_zero (Nat.le_zero.mp hp)
    simp [this, cfbEncLoop, cfbDecLoop]
  | succ fuel ih =>
    intro ks p hp hks
    by_cases hnil : p = []
    · simp [hnil, cfbEncLoop_nil, cfbDecLoop_nil]
    have hplen : 1 ≤ p.length := List.length_pos.mpr hnil
    set c := xorBytes (List.take 16 p) ks with hcdef
    have hclen : c.length = min 16 p.length := by
      rw [hcdef, length_xorBytes, List.length_take, hks]
      omega
    have henc := cfbEncLoop_cons E fuel ks p hnil
    have hc_ne : c ≠ [] := by
      intro h0
      rw [h0] at hclen
      simp at hclen
      omega
    by_cases hsmall : p.length < 16
    · have hdrop : List.drop 16 p = [] :=
        List.eq_nil_of_length_eq_zero (by rw [List.length_drop]; omega)
      have htail : cfbEncLoop E fuel (E c) (List.drop 16 p) = [] := by
        rw [hdrop]; exact cfbEncLoop_nil _ _ _
      rw [henc, ← hcdef, htail, List.append_nil]
      rw [cfbDecLoop_cons E fuel ks c hc_ne]
      have hc_lt : c.length < 16 := by omega
      have htake_c : List.take 16 c = c := List.take_of_length_le (by omega)
      have hdrop_c : List.drop 16 c = [] :=
        List.eq_nil_of_length_eq_zero (by rw [List.length_drop]; omega)
      rw [htake_c, hdrop_c, cfbDecLoop_nil, List.append_nil, hcdef]
      rw [xorBytes_xorBytes_cancel _ ks (by rw [List.length_take, hks]; omega)]
      exact List.take_of_length_le (by omega)
    · -- full block: the chunk has exactly 16 bytes
      push_neg at hsmall
      have hc16 : c.length = 16 := by omega
      set rest := cfbEncLoop E fuel (E c) (List.drop 16 p) with hrest
      have htake : List.take 16 (c ++ rest) = c := List.take_left' hc16
      have hdropapp : List.drop 16 (c ++ rest) = rest := List.drop_left' hc16
      have happ_ne : c ++ rest ≠ [] := fun h0 => hc_ne (List.append_eq_nil.mp h0).1
      rw [henc, ← hcdef]
      rw [cfbDecLoop_cons E fuel ks (c ++ rest) happ_ne, htake, hdropapp, hrest]
      rw [ih (E c) (List.drop 16 p) (by rw [List.length_drop]; omega) (hE c)]
      rw [hcdef]
      rw [xorBytes_xorBytes_cancel _ ks (by rw [List.length_take, hks]; omega)]
      exact List.take_append_drop 16 p

/-! ### Branch behaviour of `Decrypt` -/

theorem Decrypt_short (pr : Prims) (data key : Bytes) (sig : String)
    (h : data.length < 16) :
    Decrypt pr data sig key = (.error .insufficientData, data) := by
  unfold Decrypt
  rw [if_pos h]

theorem Decrypt_badHex (pr : Prims) (data key : Bytes) (sig : String)
    (hlen : ¬ data.length < 16) (hhex : hexDecode sig = none) :
    Decrypt pr data sig key = (.error .invalidHex, data) := by
  unfold Decrypt
  rw [if_neg hlen, hhex]

theorem Decrypt_authMismatch (pr : Prims) (data key m : Bytes) (sig : String)
    (hlen : ¬ data.length < 16) (hhex : hexDecode sig = some m)
    (hne : m ≠ pr.hmacSHA256 key data) :
    Decrypt pr data sig key = (.error .sigMismatch, data) := by
  unfold Decrypt
  rw [if_neg hlen, hhex]
  have : hmacEqual m (pr.hmacSHA256 key data) = false := by
    simp [hmacEqual]
    exact hne
  simp [this]

theorem Decrypt_macOk (pr : Prims) (data key : Bytes) (sig : String)
    (hlen : ¬ data.length < 16)
    (hhex : hexDecode sig = some (pr.hmacSHA256 key data)) :
    Decrypt pr data sig key =
      (let E := pr.blockEncrypt (generate32ByteKey pr key)
       let dectext := cfbDecrypt E (E (List.take 16 data)) (List.drop 16 data)
       match pr.gunzip dectext with
       | none => (.error .corruptPayload, List.take 16 data ++ dectext)
       | some out => (.ok out, List.take 16 data ++ dectext)) := by
  unfold Decrypt
  rw [if_neg hlen, hhex]
  have : hmacEqual (pr.hmacSHA256 key data) (pr.hmacSHA256 key data) = true := by
    simp [hmacEqual]
  simp only [this, Bool.not_true, if_neg]
  simp

theorem length_cfbDecLoop (E : Bytes → Bytes) (hE : ∀ b, (E b).length = 16) :
    ∀ (fuel : Nat) (ks c : Bytes), c.length ≤ fuel → ks.length = 16 →
      (cfbDecLoop E fuel ks c).length = c.length := by
  intro fuel
  induction fuel with
  | zero =>
    intro ks c hc _
    have : c = [] := List.eq_nil_of_length_eq_zero (Nat.le_zero.mp hc)
    simp [this, cfbDecLoop]
  | succ fuel ih =>
    intro ks c hc hks
    by_cases hnil : c = []
    · simp [hnil, cfbDecLoop_nil]
    have hclen : 1 ≤ c.length := List.length_pos.mpr hnil
    rw [cfbDecLoop_cons E fuel ks c hnil, List.length_append]
    rw [ih (E (List.take 16 c)) (List.drop 16 c)
      (by rw [List.length_drop]; omega) (hE _)]
    rw [length_xorBytes, List.length_take, hks, List.length_drop]
    omega

theorem Encrypt_eq (pr : Prims) (data key iv : Bytes) :
    Encrypt pr data key iv
      = (iv ++ cfbEncrypt (pr.blockEncrypt (generate32ByteKey pr key))
            (pr.blockEncrypt (generate32ByteKey pr key) iv) (pr.gzipC data),
         hexEncode (pr.hmacSHA256 key
            (iv ++ cfbEncrypt (pr.blockEncrypt (generate32ByteKey pr key))
                (pr.blockEncrypt (generate32ByteKey pr key) iv) (pr.gzipC data)))) :=
  rfl

/-- C1: for every secret (any length, including empty) and every plaintext
(any length, including empty and arbitrary binary), decrypting the envelope
and hex signature produced by `Encrypt` with the same secret returns the
plaintext bit-for-bit.  Quantified over every primitive instantiation whose
block cipher emits 16-byte blocks, whose MAC emits bytes, and whose gzip
pair round-trips, and over every 16-byte IV draw. -/
theorem decrypt_encrypt_roundTrip (pr : Prims) (data key iv : Bytes)
    (hiv : iv.length = 16)
    (hE : ∀ k b, (pr.blockEncrypt k b).length = 16)
    (hmacByte : ∀ k d, ∀ b ∈ pr.hmacSHA256 k d, b < 256)
    (hgz : ∀ p, pr.gunzip (pr.gzipC p) = some p) :
    (Decrypt pr (Encrypt pr data key iv).1 (Encrypt pr data key iv).2 key).1
      = .ok data := by
  have hE' := hE (generate32ByteKey pr key)
  rw [Encrypt_eq]
  set E := pr.blockEncrypt (generate32ByteKey pr key) with hEdef
  set gz := pr.gzipC data with hgz'
  set ct := cfbEncrypt E (E iv) gz with hct
  have hctlen : ct.length = gz.length := by
    rw [hct]
    exact length_cfbEncLoop E hE' gz.length (E iv) gz le_rfl (hE' iv)
  have hlen : ¬ (iv ++ ct).length < 16 := by
    rw [List.length_append, hiv]; omega
  have hdec := hexDecode_hexEncode (pr.hmacSHA256 key (iv ++ ct))
    (hmacByte key (iv ++ ct))
  rw [Decrypt_macOk pr (iv ++ ct) key _ hlen hdec]
  simp only [← hEdef]
  have htake : List.take 16 (iv ++ ct) = iv := List.take_left' hiv
  have hdrop : List.drop 16 (iv ++ ct) = ct := List.drop_left' hiv
  rw [htake, hdrop]
  have hinv : cfbDecrypt E (E iv) ct = gz := by
    rw [hct]
    unfold cfbDecrypt cfbEncrypt
    rw [show (cfbEncLoop E gz.length (E iv) gz).length = gz.length from
      length_cfbEncLoop E hE' gz.length (E iv) gz le_rfl (hE' iv)]
    exact cfb_inverse E hE' gz.length (E iv) gz le_rfl (hE' iv)
  rw [hinv, hgz data]

/-- C1 witness: the concrete primitives, secret `"key"`, plaintext `"hi"`,
and the all-zero IV round-trip. -/
theorem decrypt_encrypt_roundTrip_witness :
    (Decrypt wPrims (Encrypt wPrims [104, 105] wKey wIv).1
        (Encrypt wPrims [104, 105] wKey wIv).2 wKey).1 = .ok [104, 105] :=
  decrypt_encrypt_roundTrip wPrims [104, 105] wKey wIv (by decide)
    (fun _ _ => by simp [wPrims])
    (fun _ _ b hb => by
      simp only [wPrims] at hb
      have := List.eq_of_mem_replicate hb
      omega)
    (fun _ => rfl)

/-- C2: whenever the envelope is at least 16 bytes, the signature hex
decodes, and the decoded MAC differs from the HMAC-SHA-256 recomputed over
the envelope with the raw secret, `Decrypt` returns the authentication
failure and the caller's buffer is untouched: no stream-cipher transform is
applied and the ciphertext portion is left unmodified. -/
theorem decrypt_authFailure_aborts (pr : Prims) (data key m : Bytes) (sig : String)
    (hlen : 16 ≤ data.length) (hhex : hexDecode sig = some m)
    (hne : m ≠ pr.hmacSHA256 key data) :
    Decrypt pr data sig key = (.error .sigMismatch, data) :=
  Decrypt_authMismatch pr data key m sig (by omega) hhex hne

/-- C2 witness: a 16-byte buffer with a decodable but wrong signature. -/
theorem decrypt_authFailure_aborts_witness :
    Decrypt wPrims (List.replicate 16 5) w2Sig wKey
      = (.error .sigMismatch, List.replicate 16 5) :=
  decrypt_authFailure_aborts wPrims (List.replicate 16 5) wKey
    (List.replicate 32 17) w2Sig (by decide) (by decide) (by decide)

/-- C3: the envelope is the 16-byte IV followed by a ciphertext of exactly
the length of the gzip-compressed plaintext, and the detached signature is
the 64-character lowercase hex encoding of the 32-byte HMAC-SHA-256 over
the full envelope keyed by the raw secret argument (not the derived key). -/
theorem encrypt_envelope_shape (pr : Prims) (data key iv : Bytes)
    (hiv : iv.length = 16)
    (hE : ∀ k b, (pr.blockEncrypt k b).length = 16)
    (hmacLen : ∀ k d, (pr.hmacSHA256 k d).length = 32)
    (hmacByte : ∀ k d, ∀ b ∈ pr.hmacSHA256 k d, b < 256) :
    List.take 16 (Encrypt pr data key iv).1 = iv
  ∧ (Encrypt pr data key iv).1.length = 16 + (pr.gzipC data).length
  ∧ (Encrypt pr data key iv).2
      = hexEncode (pr.hmacSHA256 key (Encrypt pr data key iv).1)
  ∧ ((Encrypt pr data key iv).2).length = 64
  ∧ isHex64 (Encrypt pr data key iv).2 = true := by
  have hE' := hE (generate32ByteKey pr key)
  rw [Encrypt_eq]
  set E := pr.blockEncrypt (generate32ByteKey pr key) with hEdef
  set gz := pr.gzipC data with hgz'
  set ct := cfbEncrypt E (E iv) gz with hct
  have hctlen : ct.length = gz.length := by
    rw [hct]
    exact length_cfbEncLoop E hE' gz.length (E iv) gz le_rfl (hE' iv)
  have hmlen : (pr.hmacSHA256 key (iv ++ ct)).length = 32 := hmacLen _ _
  have hslen : (hexEncode (pr.hmacSHA256 key (iv ++ ct))).length = 64 := by
    show (hexEncodeList (pr.hmacSHA256 key (iv ++ ct))).length = 64
    rw [length_hexEncodeList, hmlen]
  refine ⟨List.take_left' hiv, ?_, rfl, hslen, ?_⟩
  · rw [List.length_append, hiv, hctlen]
  · show (decide ((hexEncode (pr.hmacSHA256 key (iv ++ ct))).length = 64)
      && (hexEncode (pr.hmacSHA256 key (iv ++ ct))).data.all isLowerHexChar) = true
    rw [hslen]
    simp only [decide_True, Bool.true_and]
    exact all_isLowerHexChar_hexEncodeList _ (hmacByte key (iv ++ ct))

/-- C3 witness: concrete primitives, plaintext `"hi"`, secret `"key"`,
all-zero IV. -/
theorem encrypt_envelope_shape_witness :
    List.take 16 (Encrypt wPrims [104, 105] wKey wIv).1 = wIv
  ∧ (Encrypt wPrims [104, 105] wKey wIv).1.length
      = 16 + (wPrims.gzipC [104, 105]).length
  ∧ (Encrypt wPrims [104, 105] wKey wIv).2
      = hexEncode (wPrims.hmacSHA256 wKey (Encrypt wPrims [104, 105] wKey wIv).1)
  ∧ ((Encrypt wPrims [104, 105] wKey wIv).2).length = 64
  ∧ isHex64 (Encrypt wPrims [104, 105] wKey wIv).2 = true :=
  encrypt_envelope_shape wPrims [104, 105] wKey wIv (by decide)
    (fun _ _ => by simp [wPrims])
    (fun _ _ => by simp [wPrims])
    (fun _ _ b hb => by
      simp only [wPrims] at hb
      have := List.eq_of_mem_replicate hb
      omega)

/-- C4: key derivation is a total function of the secret alone: it always
returns exactly 32 bytes, computed by scrypt with cost parameters
`N = 16384`, `r = 8`, `p = 1`, salted with the 64-byte SHA-512 digest of
the secret itself.  (Totality holds by construction: the embedding, like
the Go code for these fixed valid parameters, has no failure path.) -/
theorem generate32ByteKey_spec (pr : Prims) (secret : Bytes)
    (hscr : ∀ pw salt N r p kl, (pr.scryptKey pw salt N r p kl).length = kl)
    (hsha : ∀ x, (pr.sha512 x).length = 64) :
    (generate32ByteKey pr secret).length = 32
  ∧ generate32ByteKey pr secret
      = pr.scryptKey secret (pr.sha512 secret) 16384 8 1 32
  ∧ (pr.sha512 secret).length = 64 :=
  ⟨hscr _ _ _ _ _ _, rfl, hsha secret⟩

/-- C4 witness: the concrete primitives at the secret `"key"`. -/
theorem generate32ByteKey_spec_witness :
    (generate32ByteKey wPrims wKey).length = 32
  ∧ generate32ByteKey wPrims wKey
      = wPrims.scryptKey wKey (wPrims.sha512 wKey) 16384 8 1 32
  ∧ (wPrims.sha512 wKey).length = 64 :=
  generate32ByteKey_spec wPrims wKey (fun _ _ _ _ _ kl => by simp [wPrims])
    (fun _ => by simp [wPrims])

/-- C6 counterexample: a single-bit modification of a signature produced by
`Encrypt` can fail with the hex-decoding error rather than the
authentication failure.  `Encrypt` of the empty plaintext under the
concrete primitives yields the all-zero signature; flipping one bit of its
first character (`'0'`, 0x30, to `'p'`, 0x70 — their codes differ exactly
in bit 6) makes the signature undecodable, and `Decrypt` reports the hex
error, not `AuthenticationFailure`. -/
theorem decrypt_bitflip_wrongError_cex :
    (Encrypt wPrims [] [] wIv).2 = sig0
  ∧ Char.toNat '0' ^^^ Char.toNat 'p' = 64
  ∧ (Decrypt wPrims (Encrypt wPrims [] [] wIv).1 sig0flip []).1
      = .error .invalidHex
  ∧ CrypErr.invalidHex ≠ CrypErr.sigMismatch := by
  refine ⟨by decide, by decide, ?_, by decide⟩
  rfl

/-- C6 amended: a one-bit change to the envelope or signature never yields
a silently wrong plaintext — `Decrypt` returns a plaintext only when the
decoded signature equals the recomputed HMAC; when the modified signature
still hex-decodes but mismatches, it fails with `AuthenticationFailure`;
when the modification makes the signature non-decodable, it fails with the
hex-decoding error instead of `AuthenticationFailure`. -/
theorem decrypt_tamper_rejected (pr : Prims) (data key : Bytes) (sig : String)
    (hlen : 16 ≤ data.length) :
    (hexDecode sig = none → (Decrypt pr data sig key).1 = .error .invalidHex)
  ∧ (∀ m, hexDecode sig = some m → m ≠ pr.hmacSHA256 key data →
      (Decrypt pr data sig key).1 = .error .sigMismatch)
  ∧ (∀ p, (Decrypt pr data sig key).1 = .ok p →
      hexDecode sig = some (pr.hmacSHA256 key data)) := by
  have hlen' : ¬ data.length < 16 := by omega
  refine ⟨fun hh => by rw [Decrypt_badHex pr data key sig hlen' hh],
    fun m hm hne => by rw [Decrypt_authMismatch pr data key m sig hlen' hm hne],
    ?_⟩
  intro p hp
  cases hh : hexDecode sig with
  | none =>
    rw [Decrypt_badHex pr data key sig hlen' hh] at hp
    exact absurd hp (by simp)
  | some m =>
    by_cases hme : m = pr.hmacSHA256 key data
    · exact congrArg some hme
    · rw [Decrypt_authMismatch pr data key m sig hlen' hh hme] at hp
      exact absurd hp (by simp)

/-- C6 amended witness: the concrete primitives with a 16-byte buffer and a
decodable signature. -/
theorem decrypt_tamper_rejected_witness :
    (hexDecode w2Sig = none →
      (Decrypt wPrims (List.replicate 16 5) w2Sig wKey).1 = .error .invalidHex)
  ∧ (∀ m, hexDecode w2Sig = some m → m ≠ wPrims.hmacSHA256 wKey (List.replicate 16 5) →
      (Decrypt wPrims (List.replicate 16 5) w2Sig wKey).1 = .error .sigMismatch)
  ∧ (∀ p, (Decrypt wPrims (List.replicate 16 5) w2Sig wKey).1 = .ok p →
      hexDecode w2Sig = some (wPrims.hmacSHA256 wKey (List.replicate 16 5))) :=
  decrypt_tamper_rejected wPrims (List.replicate 16 5) wKey w2Sig (by decide)

/-- C10: `Decrypt` mutates the caller's buffer.  When the MAC check passes,
the bytes after the 16-byte IV are overwritten with the CFB-decrypted
bytes (the buffer keeps its prefix and length), and this persists even
when `Decrypt` then fails with the decompression (`CorruptPayload`) error;
when the MAC check fails, the buffer is returned unchanged. -/
theorem decrypt_buffer_mutation (pr : Prims) (data key m : Bytes) (sig : String)
    (hlen : 16 ≤ data.length)
    (hhex : hexDecode sig = some m)
    (hE : ∀ k b, (pr.blockEncrypt k b).length = 16) :
    (m = pr.hmacSHA256 key data →
        (Decrypt pr data sig key).2
            = List.take 16 data ++ decryptedTail pr data key
      ∧ List.take 16 (Decrypt pr data sig key).2 = List.take 16 data
      ∧ ((Decrypt pr data sig key).2).length = data.length
      ∧ (pr.gunzip (decryptedTail pr data key) = none →
          (Decrypt pr data sig key).1 = .error .corruptPayload))
  ∧ (m ≠ pr.hmacSHA256 key data → (Decrypt pr data sig key).2 = data) := by
  have hlen' : ¬ data.length < 16 := by omega
  constructor
  · intro hme
    rw [hme] at hhex
    rw [Decrypt_macOk pr data key sig hlen' hhex]
    have hE' := hE (generate32ByteKey pr key)
    have htail : (decryptedTail pr data key).length = (List.drop 16 data).length := by
      unfold decryptedTail cfbDecrypt
      exact length_cfbDecLoop _ hE' _ _ _ le_rfl (hE' _)
    have htake16 : (List.take 16 data).length = 16 := by
      rw [List.length_take]; omega
    constructor
    · cases hg : pr.gunzip (decryptedTail pr data key) with
      | none => simp only [decryptedTail] at hg; simp [hg, decryptedTail]
      | some out => simp only [decryptedTail] at hg; simp [hg, decryptedTail]
    constructor
    · cases hg : pr.gunzip (decryptedTail pr data key) with
      | none =>
        simp only [decryptedTail] at hg
        simp only [hg]
        rw [List.take_left' htake16]
      | some out =>
        simp only [decryptedTail] at hg
        simp only [hg]
        rw [List.take_left' htake16]
    constructor
    · cases hg : pr.gunzip (decryptedTail pr data key) with
      | none =>
        simp only [decryptedTail] at hg
        simp only [hg, List.length_append]
        rw [show (cfbDecrypt (pr.blockEncrypt (generate32ByteKey pr key))
            (pr.blockEncrypt (generate32ByteKey pr key) (List.take 16 data))
            (List.drop 16 data)).length = (List.drop 16 data).length from htail]
        rw [List.length_take, List.length_drop]
        omega
      | some out =>
        simp only [decryptedTail] at hg
        simp only [hg, List.length_append]
        rw [show (cfbDecrypt (pr.blockEncrypt (generate32ByteKey pr key))
            (pr.blockEncrypt (generate32ByteKey pr key) (List.take 16 data))
            (List.drop 16 data)).length = (List.drop 16 data).length from htail]
        rw [List.length_take, List.length_drop]
        omega
    · intro hg
      simp only [decryptedTail] at hg
      simp [hg]
  · intro hne
    rw [Decrypt_authMismatch pr data key m sig hlen' hhex hne]

/-- C10 witness: the concrete primitives on a 20-byte buffer whose MAC
matches the all-zero signature. -/
theorem decrypt_buffer_mutation_witness :
    ((List.replicate 32 0 : Bytes) = wPrims.hmacSHA256 wKey (List.replicate 20 3) →
        (Decrypt wPrims (List.replicate 20 3) sig0 wKey).2
            = List.take 16 (List.replicate 20 3)
                ++ decryptedTail wPrims (List.replicate 20 3) wKey
      ∧ List.take 16 (Decrypt wPrims (List.replicate 20 3) sig0 wKey).2
          = List.take 16 (List.replicate 20 3)
      ∧ ((Decrypt wPrims (List.replicate 20 3) sig0 wKey).2).length
          = (List.replicate 20 3 : Bytes).length
      ∧ (wPrims.gunzip (decryptedTail wPrims (List.replicate 20 3) wKey) = none →
          (Decrypt wPrims (List.replicate 20 3) sig0 wKey).1
            = .error .corruptPayload))
  ∧ ((List.replicate 32 0 : Bytes) ≠ wPrims.hmacSHA256 wKey (List.replicate 20 3) →
      (Decrypt wPrims (List.replicate 20 3) sig0 wKey).2 = List.replicate 20 3) :=
  decrypt_buffer_mutation wPrims (List.replicate 20 3) wKey (List.replicate 32 0)
    sig0 (by decide) (by decide) (fun _ _ => by simp [wPrims])

/-- C5 (code bug): on an artifact whose envelope authenticates and whose
decrypted payload is empty, `tar.Reader.Next` returns `io.EOF` with a nil
header; the code's `err != io.EOF` guard skips the error return, but the
next line reads `hdr.Name` from the nil header, so `DecryptFile` panics
with a nil-pointer dereference instead of the no-op the spec requires. -/
theorem decryptFile_emptyPayload_nilPanic :
    (DecryptFile wPrims c5Fs c5Path wKey 0).1 = DFRes.nilPanic := by
  rfl

theorem statResolve_file (fs : FS) (fuel : Nat) (p : Path) (f : File)
    (hf : fs p = some (.file f)) : statResolve fs (fuel + 1) p = some f := by
  unfold statResolve
  rw [hf]

/-- `os.Stat` on a path whose entry is a concrete inode returns it. -/
theorem osStat_file (fs : FS) (p : Path) (f : File)
    (hf : fs p = some (.file f)) : osStat fs p = some f :=
  statResolve_file fs 39 p f hf

/-- C7: on a regular file, `EncryptFile` either fails with the collision
error when the artifact path already exists, or creates exactly one new
file — in the same parent directory, named the hex signature, with
permission 0400, containing the full envelope — leaving the source file
and every other path untouched. -/
theorem encryptFile_effects (pr : Prims) (fs : FS) (path : Path)
    (key iv : Bytes) (now : Int) (info : File)
    (hstat : fs path = some (.file info)) (hreg : info.mode &&& modeType = 0) :
    (∀ g, fs (artifactPath pr path info key iv) = some g →
        EncryptFile pr fs path key iv now = (.error .fileExists, fs))
  ∧ (fs (artifactPath pr path info key iv) = none →
        EncryptFile pr fs path key iv now
          = (.ok (artifactPath pr path info key iv),
             fsSet fs (artifactPath pr path info key iv)
               (.file (artifactFile pr path info key iv now)))
      ∧ (fsSet fs (artifactPath pr path info key iv)
           (.file (artifactFile pr path info key iv now))) path
          = some (.file info)
      ∧ ∀ q, q ≠ artifactPath pr path info key iv →
          (fsSet fs (artifactPath pr path info key iv)
            (.file (artifactFile pr path info key iv now))) q = fs q) := by
  have hos : osStat fs path = some info := osStat_file fs path info hstat
  have hnotype : ¬ info.mode &&& modeType ≠ 0 := by simp [hreg]
  constructor
  · intro g hg
    unfold EncryptFile
    simp only [hos]
    rw [if_neg hnotype, hg]
  · intro hnone
    have hne : path ≠ artifactPath pr path info key iv := by
      intro h
      rw [← h] at hnone
      rw [hstat] at hnone
      cases hnone
    refine ⟨?_, ?_, ?_⟩
    · unfold EncryptFile
      simp only [hos]
      rw [if_neg hnotype, hnone]
    · simp only [fsSet, if_neg hne]
      exact hstat
    · intro q hq
      simp only [fsSet, if_neg hq]

/-- C7 witness: a one-file filesystem; the artifact path is free, so the
call creates exactly the artifact and leaves the source in place. -/
theorem encryptFile_effects_witness :
    (∀ g, c7Fs (artifactPath wPrims c7Path ⟨0o644, [104, 105], 5⟩ wKey wIv) = some g →
        EncryptFile wPrims c7Fs c7Path wKey wIv 9 = (.error .fileExists, c7Fs))
  ∧ (c7Fs (artifactPath wPrims c7Path ⟨0o644, [104, 105], 5⟩ wKey wIv) = none →
        EncryptFile wPrims c7Fs c7Path wKey wIv 9
          = (.ok (artifactPath wPrims c7Path ⟨0o644, [104, 105], 5⟩ wKey wIv),
             fsSet c7Fs (artifactPath wPrims c7Path ⟨0o644, [104, 105], 5⟩ wKey wIv)
               (.file (artifactFile wPrims c7Path ⟨0o644, [104, 105], 5⟩ wKey wIv 9)))
      ∧ (fsSet c7Fs (artifactPath wPrims c7Path ⟨0o644, [104, 105], 5⟩ wKey wIv)
           (.file (artifactFile wPrims c7Path ⟨0o644, [104, 105], 5⟩ wKey wIv 9))) c7Path
          = some (.file ⟨0o644, [104, 105], 5⟩)
      ∧ ∀ q, q ≠ artifactPath wPrims c7Path ⟨0o644, [104, 105], 5⟩ wKey wIv →
          (fsSet c7Fs (artifactPath wPrims c7Path ⟨0o644, [104, 105], 5⟩ wKey wIv)
            (.file (artifactFile wPrims c7Path ⟨0o644, [104, 105], 5⟩ wKey wIv 9))) q
            = c7Fs q) :=
  encryptFile_effects wPrims c7Fs c7Path wKey wIv 9 ⟨0o644, [104, 105], 5⟩
    (by decide) (by decide)

/-! ### Walk frame lemmas -/

theorem EncryptFile_fs_preserves (pr : Prims) (fs : FS) (path : Path)
    (key iv : Bytes) (now : Int) (q : Path) (hq : fs q ≠ none) :
    (EncryptFile pr fs path key iv now).2 q = fs q := by
  unfold EncryptFile
  split
  · rfl
  · split
    · rfl
    · split
      · rfl
      · rename_i hnone
        simp only [fsSet]
        split
        · rename_i hqe
          rw [hqe] at hq
          exact absurd hnone hq
        · rfl

theorem DecryptFile_fs_preserves (pr : Prims) (fs : FS) (path : Path)
    (key : Bytes) (now : Int) (q : Path) (hq : fs q ≠ none) :
    (DecryptFile pr fs path key now).2 q = fs q := by
  unfold DecryptFile
  split
  · rfl
  · split
    · rfl
    · split
      · rfl
      · split
        · rfl
        · split
          · rfl
          · rfl
          · split
            · rfl
            · rename_i hnone
              split
              · simp only [fsSet]
                split
                · rename_i hqe
                  rw [hqe] at hq
                  exact absurd hnone hq
                · rfl
              · simp only [fsSet]
                split
                · rename_i hqe
                  rw [hqe] at hq
                  exact absurd hnone hq
                · rfl

theorem encryptWalk_preserves_nonRegular (pr : Prims) (key : Bytes)
    (ivf : Path → Bytes) (now : Int) (p : Path) (ent : Entry)
    (hnr : lstatMode ent &&& modeType ≠ 0) :
    ∀ (entries : List Path) (fs : FS), fs p = some ent →
      (encryptWalk pr key ivf now entries fs).1 p = some ent := by
  intro entries
  induction entries with
  | nil => intro fs hf; exact hf
  | cons e rest ih =>
    intro fs hf
    simp only [encryptWalk]
    split
    · exact ih fs hf
    · rename_i ent2 heq
      split
      · exact ih fs hf
      · rename_i hregmode
        have hpe : p ≠ e := by
          intro hpe
          rw [hpe, heq] at hf
          cases hf
          exact hregmode hnr
        split
        · rename_i err fs' hcall
          have hpres := EncryptFile_fs_preserves pr fs e key (ivf e) now p
            (by rw [hf]; exact fun hc => Option.noConfusion hc)
          rw [hcall] at hpres
          have hpres' : fs' p = fs p := hpres
          show fs' p = some ent
          rw [hpres']
          exact hf
        · rename_i rp fs' hcall
          have hpres := EncryptFile_fs_preserves pr fs e key (ivf e) now p
            (by rw [hf]; exact fun hc => Option.noConfusion hc)
          rw [hcall] at hpres
          have hpres' : fs' p = fs p := hpres
          refine ih (fsDel fs' e) ?_
          simp only [fsDel, if_neg hpe]
          rw [hpres']
          exact hf

theorem decryptWalk_preserves_dir (pr : Prims) (key : Bytes)
    (now : Int) (q : Path) (entq : Entry)
    (hdir : lstatMode entq &&& modeDir ≠ 0) :
    ∀ (entries : List Path) (fs : FS), fs q = some entq →
      (decryptWalk pr key now entries fs).1 q = some entq := by
  intro entries
  induction entries with
  | nil => intro fs hg; exact hg
  | cons e rest ih =>
    intro fs hg
    simp only [decryptWalk]
    split
    · exact ih fs hg
    · rename_i ent2 heq
      split
      · exact ih fs hg
      · rename_i hdirneg
        have hqe : q ≠ e := by
          intro hqe
          rw [hqe, heq] at hg
          cases hg
          exact hdirneg hdir
        split
        · exact ih fs hg
        · split
          · rename_i err fs' hcall
            have hpres := DecryptFile_fs_preserves pr fs e key now q
              (by rw [hg]; exact fun hc => Option.noConfusion hc)
            rw [hcall] at hpres
            have hpres' : fs' q = fs q := hpres
            show fs' q = some entq
            rw [hpres']
            exact hg
          · rename_i fs' hcall
            have hpres := DecryptFile_fs_preserves pr fs e key now q
              (by rw [hg]; exact fun hc => Option.noConfusion hc)
            rw [hcall] at hpres
            have hpres' : fs' q = fs q := hpres
            show fs' q = some entq
            rw [hpres']
            exact hg
          · rename_i rp fs' hcall
            have hpres := DecryptFile_fs_preserves pr fs e key now q
              (by rw [hg]; exact fun hc => Option.noConfusion hc)
            rw [hcall] at hpres
            have hpres' : fs' q = fs q := hpres
            refine ih (fsDel fs' e) ?_
            simp only [fsDel, if_neg hqe]
            rw [hpres']
            exact hg

theorem decryptWalk_preserves_nonHex (pr : Prims) (key : Bytes)
    (now : Int) (q : Path) (g : Entry)
    (hnh : isHex64 (pathBase q) = false) :
    ∀ (entries : List Path) (fs : FS), fs q = some g →
      (decryptWalk pr key now entries fs).1 q = some g := by
  intro entries
  induction entries with
  | nil => intro fs hg; exact hg
  | cons e rest ih =>
    intro fs hg
    simp only [decryptWalk]
    split
    · exact ih fs hg
    · rename_i info heq
      split
      · exact ih fs hg
      · split
        · exact ih fs hg
        · rename_i hhexneg
          have hhexe : isHex64 (pathBase e) = true := by
            by_contra hc
            exact hhexneg (by simpa using hc)
          have hqe : q ≠ e := by
            intro hqe
            rw [hqe, hhexe] at hnh
            cases hnh
          split
          · rename_i err fs' hcall
            have hpres := DecryptFile_fs_preserves pr fs e key now q
              (by rw [hg]; exact fun hc => Option.noConfusion hc)
            rw [hcall] at hpres
            have hpres' : fs' q = fs q := hpres
            show fs' q = some g
            rw [hpres']
            exact hg
          · rename_i fs' hcall
            have hpres := DecryptFile_fs_preserves pr fs e key now q
              (by rw [hg]; exact fun hc => Option.noConfusion hc)
            rw [hcall] at hpres
            have hpres' : fs' q = fs q := hpres
            show fs' q = some g
            rw [hpres']
            exact hg
          · rename_i rp fs' hcall
            have hpres := DecryptFile_fs_preserves pr fs e key now q
              (by rw [hg]; exact fun hc => Option.noConfusion hc)
            rw [hcall] at hpres
            have hpres' : fs' q = fs q := hpres
            refine ih (fsDel fs' e) ?_
            simp only [fsDel, if_neg hqe]
            rw [hpres']
            exact hg

/-- C8 counterexample: decrypt-tree deletes a non-regular entry.  A
symlink named a 64-hex signature points at a regular file holding valid
artifact bytes; `DecryptDirFiles` does not skip it (`IsDir()` is false,
the name matches), `DecryptFile`'s `os.Stat` follows the link to the
regular target, reads and decrypts it successfully, and the walker's
`os.Remove` then deletes the symlink: after the walk the symlink is gone
and the walk reports no error. -/
theorem decryptWalk_deletes_symlink_cex :
    c8sFs ["d", sig0] = some (.symlink ["d", "t"])
  ∧ (decryptWalk wPrims wKey 0 [["d", sig0]] c8sFs).1 ["d", sig0] = none
  ∧ (decryptWalk wPrims wKey 0 [["d", sig0]] c8sFs).2 = WalkRes.done :=
  ⟨rfl, rfl, rfl⟩

/-- C8 amended: encrypt-tree (whose walk callback sees `os.Lstat` modes)
skips every non-regular entry without error and never renames, modifies,
or deletes it.  Decrypt-tree never touches an entry whose base name is
not 64 lowercase hex characters, and never treats a directory as an
artifact (directory entries are preserved); but because `DecryptFile`
stats and reads through symbolic links, a symlink whose base name is 64
lowercase hex characters is processed as an artifact: when its regular
target decrypts successfully under that name, the walker deletes the
symlink itself. -/
theorem walks_nonRegular_policy (pr : Prims) (key : Bytes)
    (ivf : Path → Bytes) (now : Int) (entries rest : List Path) (fs : FS)
    (p : Path) (ent : Entry) (hf : fs p = some ent)
    (hnr : lstatMode ent &&& modeType ≠ 0) :
    (encryptWalk pr key ivf now entries fs).1 p = some ent
  ∧ encryptWalk pr key ivf now (p :: rest) fs = encryptWalk pr key ivf now rest fs
  ∧ (∀ q entq, fs q = some entq → isHex64 (pathBase q) = false →
      (decryptWalk pr key now entries fs).1 q = some entq)
  ∧ (∀ q entq, fs q = some entq → lstatMode entq &&& modeDir ≠ 0 →
      (decryptWalk pr key now entries fs).1 q = some entq)
  ∧ (∀ t rp fs', ent = .symlink t → isHex64 (pathBase p) = true →
      DecryptFile pr fs p key now = (.ok rp, fs') →
      decryptWalk pr key now (p :: rest) fs
          = decryptWalk pr key now rest (fsDel fs' p)
      ∧ (fsDel fs' p) p = none) := by
  refine ⟨encryptWalk_preserves_nonRegular pr key ivf now p ent hnr entries fs hf,
    ?_,
    fun q entq hq hnh => decryptWalk_preserves_nonHex pr key now q entq hnh entries fs hq,
    fun q entq hq hdir => decryptWalk_preserves_dir pr key now q entq hdir entries fs hq,
    ?_⟩
  · simp only [encryptWalk, hf]
    rw [if_pos hnr]
  · intro t rp fs' hsym hhex hok
    refine ⟨?_, by simp [fsDel]⟩
    simp only [decryptWalk, hf, hsym]
    rw [if_neg (by simp only [lstatMode]; decide), if_neg (by simp [hhex]), hok]

/-- C8 amended witness: the symlink scenario, run through both walks — the
encrypt walk skips the symlink, the decrypt walk processes and removes
it. -/
theorem walks_nonRegular_policy_witness :
    (encryptWalk wPrims wKey wIvf 0 [["d", sig0]] c8sFs).1 ["d", sig0]
        = some (.symlink ["d", "t"])
  ∧ encryptWalk wPrims wKey wIvf 0 (["d", sig0] :: []) c8sFs
      = encryptWalk wPrims wKey wIvf 0 [] c8sFs
  ∧ (∀ q entq, c8sFs q = some entq → isHex64 (pathBase q) = false →
      (decryptWalk wPrims wKey 0 [["d", sig0]] c8sFs).1 q = some entq)
  ∧ (∀ q entq, c8sFs q = some entq → lstatMode entq &&& modeDir ≠ 0 →
      (decryptWalk wPrims wKey 0 [["d", sig0]] c8sFs).1 q = some entq)
  ∧ (∀ t rp fs', (Entry.symlink ["d", "t"] : Entry) = .symlink t →
      isHex64 (pathBase ["d", sig0]) = true →
      DecryptFile wPrims c8sFs ["d", sig0] wKey 0 = (.ok rp, fs') →
      decryptWalk wPrims wKey 0 (["d", sig0] :: []) c8sFs
          = decryptWalk wPrims wKey 0 [] (fsDel fs' ["d", sig0])
      ∧ (fsDel fs' ["d", sig0]) ["d", sig0] = none) :=
  walks_nonRegular_policy wPrims wKey wIvf 0 [["d", sig0]] [] c8sFs
    ["d", sig0] (.symlink ["d", "t"]) (by decide) (by decide)

/-- C9 counterexample: a successful `DecryptFile` call does not delete the
artifact.  Under the concrete primitives, the artifact at `c9Path`
decrypts and restores `["d", "f"]`, yet the artifact is still present in
the filesystem returned by the call. -/
theorem decryptFile_leaves_artifact_cex :
    (DecryptFile wPrims c9Fs c9Path wKey 0).1 = DFRes.ok ["d", "f"]
  ∧ (DecryptFile wPrims c9Fs c9Path wKey 0).2 c9Path = some (.file c9Art) :=
  ⟨rfl, rfl⟩

/-- C9 amended: artifacts are deleted by the decrypt-tree walker, not by
`DecryptFile`: a successful `DecryptFile` leaves the artifact in place,
and `DecryptDirFiles` removes it (with `os.Remove`) immediately after the
successful call, so after that walk step the artifact no longer exists. -/
theorem decryptWalk_deletes_artifact (pr : Prims) (key : Bytes) (now : Int)
    (p : Path) (rest : List Path) (fs : FS) (info : File) (rp : Path) (fs' : FS)
    (hp : fs p = some (.file info)) (hnd : info.mode &&& modeDir = 0)
    (hhex : isHex64 (pathBase p) = true)
    (hok : DecryptFile pr fs p key now = (.ok rp, fs')) :
    fs' p = some (.file info)
  ∧ decryptWalk pr key now (p :: rest) fs
      = decryptWalk pr key now rest (fsDel fs' p)
  ∧ (fsDel fs' p) p = none := by
  refine ⟨?_, ?_, by simp [fsDel]⟩
  · have hpres := DecryptFile_fs_preserves pr fs p key now p
      (by rw [hp]; exact fun hc => Option.noConfusion hc)
    rw [hok] at hpres
    have hpres' : fs' p = fs p := hpres
    rw [hpres']
    exact hp
  · simp only [decryptWalk, hp]
    rw [if_neg (by simp [lstatMode, hnd]), if_neg (by simp [hhex]), hok]

/-- C9 amended witness: the concrete scenario of the counterexample, run
through one walk step: the artifact survives `DecryptFile` and is gone
after the walker's removal. -/
theorem decryptWalk_deletes_artifact_witness :
    c9FsAfter c9Path = some (.file c9Art)
  ∧ decryptWalk wPrims wKey 0 [c9Path] c9Fs
      = decryptWalk wPrims wKey 0 [] (fsDel c9FsAfter c9Path)
  ∧ (fsDel c9FsAfter c9Path) c9Path = none :=
  decryptWalk_deletes_artifact wPrims wKey 0 c9Path [] c9Fs c9Art ["d", "f"]
    c9FsAfter (by decide) (by decide) (by decide) (by rfl)

end Cryp
